import Mathlib

/-!
Verification of the torchgeo-tutorial specification claims against a shallow
embedding of the notebooks' transform, sampler, dataset-composition and
collation logic.  Tensors are modelled as nested lists of rationals; the
`1e-10` epsilon of the source appears as the exact rational `1 / 10^10`.
-/

namespace TorchGeoTut

/-- The epsilon constant `1e-10` used by `MinMaxNormalize.apply_transform`
and the normalized-difference index transforms. -/
def eps : ℚ := 1 / 10000000000

/-- Scalar core of `MinMaxNormalize.apply_transform`:
`(input - mins) / (maxs - mins + 1e-10)` applied to one value of one channel. -/
def minMaxApply (mn mx v : ℚ) : ℚ := (v - mn) / (mx - mn + eps)

/-- One H×W channel of an image: rows of rational values. -/
abbrev Chan := List (List ℚ)

/-- A C×H×W image: a list of channels. -/
abbrev Image3 := List Chan

/-- An N×C×H×W batch: a list of images. -/
abbrev Batch4 := List Image3

/-- `MinMaxNormalize` restricted to one channel with its per-channel
parameters `mn`, `mx`: every value is mapped through `minMaxApply`. -/
def normChannel (mn mx : ℚ) (ch : Chan) : Chan :=
  ch.map (fun row => row.map (fun v => minMaxApply mn mx v))

/-- `MinMaxNormalize.apply_transform` on one image: `mins`/`maxs` are viewed
as `(1, C, 1, 1)` and broadcast, i.e. channel `c` is normalized with
`mins[c]`, `maxs[c]`. -/
def normImage (mins maxs : List ℚ) (img : Image3) : Image3 :=
  List.zipWith (fun p ch => normChannel p.1 p.2 ch) (mins.zip maxs) img

/-- `MinMaxNormalize.apply_transform` on an N×C×H×W batch: the `(1, C, 1, 1)`
view of `mins`/`maxs` broadcasts over the batch dimension. -/
def minMaxNormalizeBatch (mins maxs : List ℚ) (x : Batch4) : Batch4 :=
  x.map (normImage mins maxs)

/-- Inverse affine map of MinMax normalization on one image:
`v * (maxs[c] - mins[c] + eps) + mins[c]` per channel. -/
def denormImage (mins maxs : List ℚ) (img : Image3) : Image3 :=
  List.zipWith
    (fun p ch => ch.map (fun row => row.map (fun v => v * (p.2 - p.1 + eps) + p.1)))
    (mins.zip maxs) img

/-- Inverse affine map of MinMax normalization on a batch. -/
def denormBatch (mins maxs : List ℚ) (x : Batch4) : Batch4 :=
  x.map (denormImage mins maxs)

/-- Modelled from the spec: the stochastic-application wrapper of the base
augmentation class (the source's `K.IntensityAugmentationBase2D`, external to
the repository).  A transform carries an application probability `p`; the
per-call random draw `r` decides whether the wrapped function is applied. -/
def applyWithProb (p : ℚ) (f : Batch4 → Batch4) (r : ℚ) (x : Batch4) : Batch4 :=
  if r < p then f x else x

/-- `MinMaxNormalize` as constructed in the source: its `__init__` passes
`p = 1` to the base class, so the wrapped normalization is scheduled with
probability one. -/
def minMaxNormalizeTransform (mins maxs : List ℚ) (r : ℚ) (x : Batch4) : Batch4 :=
  applyWithProb 1 (minMaxNormalizeBatch mins maxs) r x

/-- Option-valued element access into an N×C×H×W batch. -/
def entry (x : Batch4) (n c i j : ℕ) : Option ℚ :=
  (((x[n]?).bind (fun im => im[c]?)).bind (fun ch => ch[i]?)).bind (fun row => row[j]?)

/-- The nested shape of a batch: per image, per channel, the lengths of the
rows (so equality of `shape4` is equality of the full N×C×H×W shape, even for
ragged lists). -/
def shape4 (x : Batch4) : List (List (List ℕ)) :=
  x.map (fun im => im.map (fun ch => ch.map List.length))

/-! Helper lemmas about `zipWith`. -/

theorem getElem?_zipWith' (f : α → β → γ) :
    ∀ (as : List α) (bs : List β) (i : ℕ),
      (List.zipWith f as bs)[i]? = (as[i]?).bind (fun a => (bs[i]?).map (f a)) := by
  intro as
  induction as with
  | nil => intro bs i; simp
  | cons a as ih =>
    intro bs i
    cases bs with
    | nil => simp
    | cons b bs =>
      cases i with
      | zero => simp
      | succ i => simpa using ih bs i

theorem zipWith_right_eq_map (g : β → γ) :
    ∀ (ps : List α) (bs : List β), bs.length ≤ ps.length →
      List.zipWith (fun _ b => g b) ps bs = bs.map g := by
  intro ps
  induction ps with
  | nil =>
    intro bs h
    have : bs = [] := List.eq_nil_of_length_eq_zero (Nat.le_zero.mp (by simpa using h))
    simp [this]
  | cons p ps ih =>
    intro bs h
    cases bs with
    | nil => simp
    | cons b bs => simpa using ih bs (by simpa using h)

theorem minMaxApply_left_inverse (mn mx v : ℚ) (h : mn ≤ mx) :
    minMaxApply mn mx v * (mx - mn + eps) + mn = v := by
  have heps : (0 : ℚ) < eps := by norm_num [eps]
  have hden : mx - mn + eps ≠ 0 := by
    have : (0 : ℚ) < mx - mn + eps := by linarith
    exact ne_of_gt this
  unfold minMaxApply
  field_simp

theorem denorm_norm_aux :
    ∀ (ps : List (ℚ × ℚ)) (img : Image3), (∀ q ∈ ps, q.1 ≤ q.2) →
      img.length ≤ ps.length →
      List.zipWith
        (fun p ch => ch.map (fun row => row.map (fun v => v * (p.2 - p.1 + eps) + p.1)))
        ps
        (List.zipWith (fun p ch => normChannel p.1 p.2 ch) ps img) = img := by
  intro ps
  induction ps with
  | nil =>
    intro img _ hlen
    have : img = [] := List.eq_nil_of_length_eq_zero (Nat.le_zero.mp (by simpa using hlen))
    simp [this]
  | cons q ps ih =>
    intro img hmm hlen
    cases img with
    | nil => simp
    | cons ch chs =>
      have hq : q.1 ≤ q.2 := hmm q (List.mem_cons_self q ps)
      have hps' : ∀ r ∈ ps, r.1 ≤ r.2 := fun r hr => hmm r (List.mem_cons_of_mem q hr)
      simp only [List.zipWith_cons_cons]
      refine congrArg₂ List.cons ?_ (ih chs hps' (by simpa using hlen))
      unfold normChannel
      rw [List.map_map]
      have hrow : ∀ row : List ℚ,
          ((fun row => row.map (fun v => v * (q.2 - q.1 + eps) + q.1)) ∘
            (fun row => row.map (fun v => minMaxApply q.1 q.2 v))) row = row := by
        intro row
        simp only [Function.comp, List.map_map]
        calc row.map ((fun v => v * (q.2 - q.1 + eps) + q.1) ∘
                (fun v => minMaxApply q.1 q.2 v))
            = row.map id :=
              List.map_congr_left (fun v _ => minMaxApply_left_inverse q.1 q.2 v hq)
          _ = row := List.map_id row
      calc ch.map ((fun row => row.map (fun v => v * (q.2 - q.1 + eps) + q.1)) ∘
              (fun row => row.map (fun v => minMaxApply q.1 q.2 v)))
          = ch.map id := List.map_congr_left (fun row _ => hrow row)
        _ = ch := List.map_id ch

theorem denorm_norm_image (mins maxs : List ℚ) (img : Image3)
    (hmm : ∀ q ∈ mins.zip maxs, q.1 ≤ q.2)
    (hlen : img.length ≤ (mins.zip maxs).length) :
    denormImage mins maxs (normImage mins maxs img) = img :=
  denorm_norm_aux (mins.zip maxs) img hmm hlen

theorem entry_minMaxNormalizeBatch (mins maxs : List ℚ) (x : Batch4) (n c i j : ℕ) (v : ℚ)
    (hc : c < mins.length) (hlen : mins.length = maxs.length)
    (hv : entry x n c i j = some v) :
    entry (minMaxNormalizeBatch mins maxs x) n c i j =
      some (minMaxApply (mins.getD c 0) (maxs.getD c 0) v) := by
  cases hx : x[n]? with
  | none => simp [entry, hx] at hv
  | some im =>
    cases hic : im[c]? with
    | none => simp [entry, hx, hic] at hv
    | some ch =>
      cases hri : ch[i]? with
      | none => simp [entry, hx, hic, hri] at hv
      | some row =>
        cases hrj : row[j]? with
        | none => simp [entry, hx, hic, hri, hrj] at hv
        | some w =>
          have hw : w = v := by
            simpa [entry, hx, hic, hri, hrj] using hv
          rw [← hw]
          have hcmax : c < maxs.length := hlen ▸ hc
          have h1 : (minMaxNormalizeBatch mins maxs x)[n]? =
              some (normImage mins maxs im) := by
            simp [minMaxNormalizeBatch, List.getElem?_map, hx]
          have hz : (mins.zip maxs)[c]? = some (mins.getD c 0, maxs.getD c 0) := by
            rw [List.zip, getElem?_zipWith',
              List.getElem?_eq_getElem hc, List.getElem?_eq_getElem hcmax]
            simp [List.getD_eq_getElem?_getD, List.getElem?_eq_getElem hc,
              List.getElem?_eq_getElem hcmax]
          have h2 : (normImage mins maxs im)[c]? =
              some (normChannel (mins.getD c 0) (maxs.getD c 0) ch) := by
            rw [normImage, getElem?_zipWith', hz]
            simp [hic]
          have h3 : (normChannel (mins.getD c 0) (maxs.getD c 0) ch)[i]? =
              some (row.map (fun u => minMaxApply (mins.getD c 0) (maxs.getD c 0) u)) := by
            simp [normChannel, List.getElem?_map, hri]
          have h4 : (row.map (fun u => minMaxApply (mins.getD c 0) (maxs.getD c 0) u))[j]? =
              some (minMaxApply (mins.getD c 0) (maxs.getD c 0) w) := by
            simp [List.getElem?_map, hrj]
          unfold entry
          rw [h1, Option.some_bind, h2, Option.some_bind, h3, Option.some_bind, h4]

/-- Claim C1 counterexample: with `mins = [0]`, `maxs = [1]` the input value
`1 + 1/(2·10^10)` lies strictly above `maxs`, yet its normalized value
`(1 + 1/(2·10^10)) / (1 + 1e-10)` lies inside `[0, 1]` — so an input outside
`[mins, maxs]` does not always produce an output outside `[0, 1]`. -/
theorem claim_c1_counterexample :
    (1 : ℚ) < 1 + 1 / 20000000000 ∧
    entry (minMaxNormalizeBatch [0] [1] [[[[(1 : ℚ) + 1 / 20000000000]]]]) 0 0 0 0 =
      some (minMaxApply 0 1 (1 + 1 / 20000000000)) ∧
    0 ≤ minMaxApply 0 1 ((1 : ℚ) + 1 / 20000000000) ∧
    minMaxApply 0 1 ((1 : ℚ) + 1 / 20000000000) ≤ 1 := by
  refine ⟨by norm_num, ?_, ?_, ?_⟩
  · rfl
  · norm_num [minMaxApply, eps]
  · rw [minMaxApply, div_le_one (show (0 : ℚ) < 1 - 0 + eps by norm_num [eps])]
    norm_num [eps]

/-- Claim C1 (amended): every element of the output of `MinMaxNormalize` is
exactly `(input − mins[c]) / (maxs[c] − mins[c] + 1e-10)` for its channel `c`,
the output is not clamped, an input strictly below `mins[c]` yields an output
strictly below 0, and an input strictly above `maxs[c] + 1e-10` yields an
output strictly above 1 (inputs in the sliver `(maxs[c], maxs[c] + 1e-10]`
can land inside `[0, 1]`, as the counterexample shows). -/
theorem claim_c1_minmax_normalize (mins maxs : List ℚ) (x : Batch4) (n c i j : ℕ) (v : ℚ)
    (hc : c < mins.length) (hlen : mins.length = maxs.length)
    (hv : entry x n c i j = some v)
    (hmm : mins.getD c 0 ≤ maxs.getD c 0) :
    entry (minMaxNormalizeBatch mins maxs x) n c i j =
      some ((v - mins.getD c 0) / (maxs.getD c 0 - mins.getD c 0 + eps)) ∧
    (v < mins.getD c 0 → minMaxApply (mins.getD c 0) (maxs.getD c 0) v < 0) ∧
    (maxs.getD c 0 + eps < v → 1 < minMaxApply (mins.getD c 0) (maxs.getD c 0) v) := by
  have heps : (0 : ℚ) < eps := by norm_num [eps]
  have hd : (0 : ℚ) < maxs.getD c 0 - mins.getD c 0 + eps := by linarith
  refine ⟨entry_minMaxNormalizeBatch mins maxs x n c i j v hc hlen hv, ?_, ?_⟩
  · intro hlt
    exact div_neg_of_neg_of_pos (by linarith) hd
  · intro hgt
    rw [minMaxApply, lt_div_iff hd]
    linarith

/-- Witness for Claim C1 at a concrete input. -/
theorem claim_c1_minmax_normalize_witness :
    entry (minMaxNormalizeBatch [0] [1] [[[[(2 : ℚ)]]]]) 0 0 0 0 =
      some ((2 - 0) / (1 - 0 + eps)) ∧
    ((2 : ℚ) < 0 → minMaxApply 0 1 2 < 0) ∧
    ((1 : ℚ) + eps < 2 → 1 < minMaxApply 0 1 2) := by
  simpa using claim_c1_minmax_normalize [0] [1] [[[[(2 : ℚ)]]]] 0 0 0 0 2
    (by norm_num) (by norm_num) rfl (by norm_num)

/-- Claim C7: MinMax normalization followed by the inverse affine map
`v * (maxs[c] − mins[c] + eps) + mins[c]` recovers the original batch exactly
(hence in particular within floating-point tolerance), for every input —
also for values outside `[mins, maxs]`. -/
theorem claim_c7_minmax_invertible (mins maxs : List ℚ) (x : Batch4)
    (hlen : mins.length = maxs.length)
    (hch : ∀ im ∈ x, im.length = mins.length)
    (hmm : ∀ q ∈ mins.zip maxs, q.1 ≤ q.2) :
    denormBatch mins maxs (minMaxNormalizeBatch mins maxs x) = x := by
  unfold denormBatch minMaxNormalizeBatch
  rw [List.map_map]
  calc x.map (denormImage mins maxs ∘ normImage mins maxs)
      = x.map id := by
        refine List.map_congr_left ?_
        intro im him
        have hlz : im.length ≤ (mins.zip maxs).length := by
          rw [List.length_zip, ← hlen, Nat.min_self, hch im him]
        exact denorm_norm_image mins maxs im hmm hlz
    _ = x := List.map_id x

/-- Witness for Claim C7 at a concrete input. -/
theorem claim_c7_minmax_invertible_witness :
    denormBatch [0] [1] (minMaxNormalizeBatch [0] [1] [[[[(1 : ℚ) / 2, 3]]]]) =
      [[[[(1 : ℚ) / 2, 3]]]] := by
  refine claim_c7_minmax_invertible [0] [1] [[[[(1 : ℚ) / 2, 3]]]] rfl ?_ ?_
  · intro im him
    simp only [List.mem_singleton] at him
    simp [him]
  · intro q hq
    simp only [List.zip, List.zipWith_cons_cons, List.zipWith_nil_right,
      List.mem_singleton] at hq
    simp [hq]

/-- Claim C9: `MinMaxNormalize` is installed with application probability
`p = 1`, so whatever the per-call random draw `r ∈ [0, 1)` is, the transform
is applied unconditionally: the output equals the deterministic normalization
and any two calls on the same input agree. -/
theorem claim_c9_p1_deterministic (mins maxs : List ℚ) (r₁ r₂ : ℚ) (x : Batch4)
    (h1 : 0 ≤ r₁) (h2 : r₁ < 1) (h3 : 0 ≤ r₂) (h4 : r₂ < 1) :
    minMaxNormalizeTransform mins maxs r₁ x = minMaxNormalizeBatch mins maxs x ∧
    minMaxNormalizeTransform mins maxs r₁ x = minMaxNormalizeTransform mins maxs r₂ x := by
  constructor
  · unfold minMaxNormalizeTransform applyWithProb
    rw [if_pos h2]
  · unfold minMaxNormalizeTransform applyWithProb
    rw [if_pos h2, if_pos h4]

/-- Witness for Claim C9 at a concrete input. -/
theorem claim_c9_p1_deterministic_witness :
    minMaxNormalizeTransform [0] [1] 0 [[[[(1 : ℚ)]]]] =
      minMaxNormalizeBatch [0] [1] [[[[(1 : ℚ)]]]] ∧
    minMaxNormalizeTransform [0] [1] 0 [[[[(1 : ℚ)]]]] =
      minMaxNormalizeTransform [0] [1] (1 / 2) [[[[(1 : ℚ)]]]] :=
  claim_c9_p1_deterministic [0] [1] 0 (1 / 2) [[[[(1 : ℚ)]]]]
    (by norm_num) (by norm_num) (by norm_num) (by norm_num)

/-- Claim C10: when the channel dimension of every image matches the length of
`mins` and `maxs`, `MinMaxNormalize` preserves the full N×C×H×W shape of its
input (and in particular the per-image channel count). -/
theorem claim_c10_shape_preserved (mins maxs : List ℚ) (x : Batch4)
    (hlen : mins.length = maxs.length)
    (hch : ∀ im ∈ x, im.length = mins.length) :
    shape4 (minMaxNormalizeBatch mins maxs x) = shape4 x ∧
    (minMaxNormalizeBatch mins maxs x).map List.length = x.map List.length := by
  constructor
  · unfold shape4 minMaxNormalizeBatch
    rw [List.map_map]
    refine List.map_congr_left ?_
    intro im him
    show (normImage mins maxs im).map (fun ch => ch.map List.length) =
      im.map (fun ch => ch.map List.length)
    unfold normImage
    rw [List.map_zipWith]
    have hfun : (fun (p : ℚ × ℚ) (ch : Chan) => (normChannel p.1 p.2 ch).map List.length) =
        (fun (_ : ℚ × ℚ) (ch : Chan) => ch.map List.length) := by
      funext p ch
      simp [normChannel, List.map_map, Function.comp, List.length_map]
    rw [hfun]
    refine zipWith_right_eq_map _ _ im ?_
    rw [List.length_zip, ← hlen, Nat.min_self, hch im him]
  · unfold minMaxNormalizeBatch
    rw [List.map_map]
    refine List.map_congr_left ?_
    intro im him
    show (normImage mins maxs im).length = im.length
    rw [normImage, List.length_zipWith, List.length_zip, ← hlen, Nat.min_self,
      hch im him, Nat.min_self]

/-- Witness for Claim C10 at a concrete input. -/
theorem claim_c10_shape_preserved_witness :
    shape4 (minMaxNormalizeBatch [0, 1] [1, 2] [[[[(5 : ℚ)]], [[7]]]]) =
      shape4 [[[[(5 : ℚ)]], [[7]]]] ∧
    (minMaxNormalizeBatch [0, 1] [1, 2] [[[[(5 : ℚ)]], [[7]]]]).map List.length =
      [[[[(5 : ℚ)]], [[7]]]].map List.length := by
  refine claim_c10_shape_preserved [0, 1] [1, 2] [[[[(5 : ℚ)]], [[7]]]] rfl ?_
  intro im him
  simp only [List.mem_singleton] at him
  simp [him]

/-! Append-index transforms (`indices.AppendNDVI` and friends).  The
implementations are library code outside the repository; they are modelled
from the spec. -/

/-- Modelled from the spec: the normalized-difference channel
`(band_a − band_b) / (band_a + band_b + ε)`, computed elementwise over the two
selected channels (the spec leaves the ε value of the index transforms
unnamed; the same `1e-10` guard as the normalize transform is used). -/
def ndChannel (a b : Chan) : Chan :=
  List.zipWith (fun ra rb => List.zipWith (fun u v => (u - v) / (u + v + eps)) ra rb) a b

/-- Modelled from the spec: an Append-index transform on one image — compute
the normalized difference of channels `ia` and `ib` and append it as one new
channel at the end of the channel axis. -/
def appendIndexImage (ia ib : ℕ) (img : Image3) : Image3 :=
  img ++ [ndChannel (img.getD ia []) (img.getD ib [])]

/-- Modelled from the spec: an Append-index transform on a batch. -/
def appendIndexBatch (ia ib : ℕ) (x : Batch4) : Batch4 :=
  x.map (appendIndexImage ia ib)

/-- Claim C5: each application of an Append-index transform grows every
image's channel count by exactly 1, the new channel (the normalized
difference of the selected bands) sits at the end of the channel axis, and
every pre-existing channel is unchanged. -/
theorem claim_c5_append_index (ia ib : ℕ) (x : Batch4) (n : ℕ) (im : Image3)
    (hn : x[n]? = some im) :
    (appendIndexBatch ia ib x)[n]? = some (appendIndexImage ia ib im) ∧
    (appendIndexImage ia ib im).length = im.length + 1 ∧
    (appendIndexImage ia ib im).take im.length = im ∧
    (appendIndexImage ia ib im).drop im.length =
      [ndChannel (im.getD ia []) (im.getD ib [])] := by
  refine ⟨?_, ?_, ?_, ?_⟩
  · simp [appendIndexBatch, List.getElem?_map, hn]
  · simp [appendIndexImage]
  · simp [appendIndexImage]
  · simp [appendIndexImage]

/-- Witness for Claim C5 at a concrete input. -/
theorem claim_c5_append_index_witness :
    (appendIndexBatch 0 1 [[[[(3 : ℚ)]], [[1]]]])[0]? =
      some (appendIndexImage 0 1 [[[(3 : ℚ)]], [[1]]]) ∧
    (appendIndexImage 0 1 [[[(3 : ℚ)]], [[1]]]).length = [[[(3 : ℚ)]], [[1]]].length + 1 ∧
    (appendIndexImage 0 1 [[[(3 : ℚ)]], [[1]]]).take [[[(3 : ℚ)]], [[1]]].length =
      [[[(3 : ℚ)]], [[1]]] ∧
    (appendIndexImage 0 1 [[[(3 : ℚ)]], [[1]]]).drop [[[(3 : ℚ)]], [[1]]].length =
      [ndChannel ([[[(3 : ℚ)]], [[1]]].getD 0 []) ([[[(3 : ℚ)]], [[1]]].getD 1 [])] :=
  claim_c5_append_index 0 1 [[[[(3 : ℚ)]], [[1]]]] 0 [[[(3 : ℚ)]], [[1]]] rfl

/-! Sampler.  `RandomGeoSampler` is library code outside the repository; it is
modelled from the spec. -/

/-- Modelled from the spec: an extent `(min_x, max_x, min_y, max_y, min_t,
max_t)`. -/
structure Extent where
  minx : ℚ
  maxx : ℚ
  miny : ℚ
  maxy : ℚ
  mint : ℚ
  maxt : ℚ
deriving DecidableEq

/-- Per-axis window sizes of the sampler, in the dataset's length units. -/
structure WSize where
  sx : ℚ
  sy : ℚ
  st : ℚ
deriving DecidableEq

/-- The sampler's failure mode from the spec's error taxonomy. -/
inductive SamplerError where
  | insufficientExtent
deriving DecidableEq

/-- Modelled from the spec: one random window of the given size whose origin
is drawn inside the dataset extent; `u` is the per-axis random draw in
`[0, 1]`, so the origin is `min + u·(span − size)` on each axis. -/
def sampleWindow (de : Extent) (s : WSize) (u : ℚ × ℚ × ℚ) : Extent :=
  ⟨de.minx + u.1 * (de.maxx - de.minx - s.sx),
   de.minx + u.1 * (de.maxx - de.minx - s.sx) + s.sx,
   de.miny + u.2.1 * (de.maxy - de.miny - s.sy),
   de.miny + u.2.1 * (de.maxy - de.miny - s.sy) + s.sy,
   de.mint + u.2.2 * (de.maxt - de.mint - s.st),
   de.mint + u.2.2 * (de.maxt - de.mint - s.st) + s.st⟩

/-- Modelled from the spec: `sample(dataset_extent, size, length)` produces
exactly `length` windows of the given size with randomly drawn origins, or
fails with `InsufficientExtentError` when the extent is smaller than the
window on some axis; `u` supplies the random draws. -/
def sample (de : Extent) (s : WSize) (len : ℕ) (u : ℕ → ℚ × ℚ × ℚ) :
    Except SamplerError (List Extent) :=
  if de.maxx - de.minx < s.sx ∨ de.maxy - de.miny < s.sy ∨ de.maxt - de.mint < s.st then
    .error .insufficientExtent
  else
    .ok ((List.range len).map (fun i => sampleWindow de s (u i)))

/-- Full containment of a window in a dataset extent, on every axis. -/
def containedIn (w de : Extent) : Prop :=
  de.minx ≤ w.minx ∧ w.maxx ≤ de.maxx ∧ de.miny ≤ w.miny ∧ w.maxy ≤ de.maxy ∧
  de.mint ≤ w.mint ∧ w.maxt ≤ de.maxt

theorem origin_span_bounds (lo hi sz u : ℚ) (hsz : sz ≤ hi - lo)
    (h0 : 0 ≤ u) (h1 : u ≤ 1) :
    lo ≤ lo + u * (hi - lo - sz) ∧ (lo + u * (hi - lo - sz)) + sz ≤ hi := by
  have hd : (0 : ℚ) ≤ hi - lo - sz := by linarith
  have hnn : 0 ≤ u * (hi - lo - sz) := mul_nonneg h0 hd
  have hub : u * (hi - lo - sz) ≤ hi - lo - sz := mul_le_of_le_one_left hd h1
  constructor <;> linarith

/-- Claim C2: whenever the requested size fits the dataset extent on every
axis and the random draws lie in `[0, 1]`, `sample` succeeds and yields
exactly `length` windows, each of exactly the requested size on every axis and
each fully contained in the dataset extent. -/
theorem claim_c2_sampler (de : Extent) (s : WSize) (len : ℕ) (u : ℕ → ℚ × ℚ × ℚ)
    (hx : s.sx ≤ de.maxx - de.minx) (hy : s.sy ≤ de.maxy - de.miny)
    (ht : s.st ≤ de.maxt - de.mint)
    (hu : ∀ i, 0 ≤ (u i).1 ∧ (u i).1 ≤ 1 ∧ 0 ≤ (u i).2.1 ∧ (u i).2.1 ≤ 1 ∧
      0 ≤ (u i).2.2 ∧ (u i).2.2 ≤ 1) :
    ∃ ws, sample de s len u = .ok ws ∧ ws.length = len ∧
      ∀ w ∈ ws, (w.maxx - w.minx = s.sx ∧ w.maxy - w.miny = s.sy ∧
        w.maxt - w.mint = s.st) ∧ containedIn w de := by
  refine ⟨(List.range len).map (fun i => sampleWindow de s (u i)), ?_, ?_, ?_⟩
  · unfold sample
    rw [if_neg]
    push_neg
    exact ⟨hx, hy, ht⟩
  · rw [List.length_map, List.length_range]
  · intro w hw
    rw [List.mem_map] at hw
    obtain ⟨i, _, rfl⟩ := hw
    obtain ⟨hu1, hu2, hu3, hu4, hu5, hu6⟩ := hu i
    have bx := origin_span_bounds de.minx de.maxx s.sx (u i).1 hx hu1 hu2
    have by' := origin_span_bounds de.miny de.maxy s.sy (u i).2.1 hy hu3 hu4
    have bt := origin_span_bounds de.mint de.maxt s.st (u i).2.2 ht hu5 hu6
    simp only [sampleWindow, containedIn]
    refine ⟨⟨by ring, by ring, by ring⟩, ?_⟩
    exact ⟨bx.1, bx.2, by'.1, by'.2, bt.1, bt.2⟩

/-- Witness for Claim C2 at a concrete input. -/
theorem claim_c2_sampler_witness :
    ∃ ws, sample ⟨0, 10, 0, 10, 0, 0⟩ ⟨1, 1, 0⟩ 2 (fun _ => (1 / 2, 1 / 2, 1 / 2)) =
        .ok ws ∧ ws.length = 2 ∧
      ∀ w ∈ ws, (w.maxx - w.minx = (1 : ℚ) ∧ w.maxy - w.miny = (1 : ℚ) ∧
        w.maxt - w.mint = (0 : ℚ)) ∧ containedIn w ⟨0, 10, 0, 10, 0, 0⟩ :=
  claim_c2_sampler ⟨0, 10, 0, 10, 0, 0⟩ ⟨1, 1, 0⟩ 2 (fun _ => (1 / 2, 1 / 2, 1 / 2))
    (by norm_num) (by norm_num) (by norm_num) (fun i => by norm_num)

/-- Claim C8: when the dataset extent is smaller than the requested size on at
least one axis, `sample` fails with `InsufficientExtentError` and produces no
windows. -/
theorem claim_c8_insufficient_extent (de : Extent) (s : WSize) (len : ℕ)
    (u : ℕ → ℚ × ℚ × ℚ)
    (h : de.maxx - de.minx < s.sx ∨ de.maxy - de.miny < s.sy ∨
      de.maxt - de.mint < s.st) :
    sample de s len u = .error .insufficientExtent := by
  unfold sample
  rw [if_pos h]

/-- Witness for Claim C8 at a concrete input. -/
theorem claim_c8_insufficient_extent_witness :
    sample ⟨0, 1, 0, 1, 0, 0⟩ ⟨2, 1, 0⟩ 5 (fun _ => (0, 0, 0)) =
      .error .insufficientExtent :=
  claim_c8_insufficient_extent ⟨0, 1, 0, 1, 0, 0⟩ ⟨2, 1, 0⟩ 5 (fun _ => (0, 0, 0))
    (Or.inl (by norm_num))

/-! Geo-dataset composition.  `IntersectionDataset` is library code outside
the repository; it is modelled from the spec. -/

/-- Modelled from the spec: the geometric intersection of two extents, `none`
when the intersection is empty on some axis. -/
def extIntersect (a b : Extent) : Option Extent :=
  let e : Extent := ⟨max a.minx b.minx, min a.maxx b.maxx, max a.miny b.miny,
    min a.maxy b.maxy, max a.mint b.mint, min a.maxt b.maxt⟩
  if e.minx ≤ e.maxx ∧ e.miny ≤ e.maxy ∧ e.mint ≤ e.maxt then some e else none

/-- Modelled from the spec: `intersection(A, B)` — the index whose members are
exactly the pairwise overlaps of A's and B's entries with non-empty
intersection. -/
def intersectionDataset (A B : List (ℕ × Extent)) : List ((ℕ × ℕ) × Extent) :=
  (A.map (fun ea => B.filterMap
    (fun eb => (extIntersect ea.2 eb.2).map (fun e => ((ea.1, eb.1), e))))).join

/-- Modelled from the spec: `query(extent)` — all indexed entries whose extent
intersects the query window, with their overlap extents. -/
def queryDS (D : List (α × Extent)) (w : Extent) : List (α × Extent) :=
  D.filterMap (fun e => (extIntersect w e.2).map (fun ov => (e.1, ov)))

/-- Claim C3: if no entry of dataset A overlaps any entry of dataset B, the
intersection dataset has no entries, so every query window (in particular any
window inside A's or B's extent alone) returns an empty result. -/
theorem claim_c3_disjoint_intersection (A B : List (ℕ × Extent))
    (h : ∀ ea ∈ A, ∀ eb ∈ B, extIntersect ea.2 eb.2 = none) :
    intersectionDataset A B = [] ∧
    ∀ w, queryDS (intersectionDataset A B) w = [] := by
  have hempty : intersectionDataset A B = [] := by
    unfold intersectionDataset
    rw [List.join_eq_nil_iff]
    intro l hl
    rw [List.mem_map] at hl
    obtain ⟨ea, hea, rfl⟩ := hl
    rw [List.filterMap_eq_nil]
    intro eb heb
    rw [h ea hea eb heb]
    rfl
  exact ⟨hempty, fun w => by rw [hempty]; rfl⟩

/-- Witness for Claim C3 at a concrete input: two single-tile datasets over
disjoint x-ranges. -/
theorem claim_c3_disjoint_intersection_witness :
    intersectionDataset [(0, ⟨0, 1, 0, 1, 0, 0⟩)] [(1, ⟨2, 3, 0, 1, 0, 0⟩)] = [] ∧
    ∀ w, queryDS (intersectionDataset [(0, ⟨0, 1, 0, 1, 0, 0⟩)]
      [(1, ⟨2, 3, 0, 1, 0, 0⟩)]) w = [] := by
  refine claim_c3_disjoint_intersection _ _ ?_
  intro ea hea eb heb
  simp only [List.mem_singleton] at hea heb
  rw [hea, heb]
  decide

/-! Batch assembly (`stack_samples`).  The implementation is library code
outside the repository; it is modelled from the spec. -/

/-- A tensor for collation purposes: its shape and its flattened contents. -/
structure Tensor where
  shape : List ℕ
  data : List ℚ
deriving DecidableEq

/-- A sample: an association list from string keys to tensors. -/
abbrev Sample := List (String × Tensor)

/-- A collated batch: the same keys, each mapped to its stacked tensor. -/
abbrev CollBatch := List (String × Tensor)

/-- The collation failure modes from the spec's error taxonomy. -/
inductive CollateError where
  | shapeMismatch
  | missingKey
deriving DecidableEq

/-- First tensor stored under key `k` in a sample. -/
def lookupKey (k : String) : Sample → Option Tensor
  | [] => none
  | p :: rest => if p.1 = k then some p.2 else lookupKey k rest

/-- Modelled from the spec: collect the tensors stored under one key across
all samples of the call, failing when a sample lacks the key. -/
def gather (k : String) : List Sample → Except CollateError (List Tensor)
  | [] => .ok []
  | s :: rest =>
    match lookupKey k s with
    | none => .error .missingKey
    | some t =>
      match gather k rest with
      | .error e => .error e
      | .ok ts => .ok (t :: ts)

/-- Modelled from the spec: stack tensors along a new leading axis; all
tensors of one call must share one shape, otherwise `ShapeMismatchError` is
signalled. -/
def stackTensors : List Tensor → Except CollateError Tensor
  | [] => .ok ⟨[0], []⟩
  | t :: rest =>
    if ∀ v ∈ rest, v.shape = t.shape then
      .ok ⟨(t :: rest).length :: t.shape, ((t :: rest).map Tensor.data).join⟩
    else .error .shapeMismatch

/-- Modelled from the spec: collate one key after the other. -/
def collateKeys : List String → List Sample → Except CollateError CollBatch
  | [], _ => .ok []
  | k :: ks, samples =>
    match gather k samples with
    | .error e => .error e
    | .ok ts =>
      match stackTensors ts with
      | .error e => .error e
      | .ok t =>
        match collateKeys ks samples with
        | .error e => .error e
        | .ok bat => .ok ((k, t) :: bat)

/-- Modelled from the spec: `collate(samples)` — stack same-keyed tensors
along a new leading batch axis, keyed by the first sample's keys. -/
def collate (samples : List Sample) : Except CollateError CollBatch :=
  match samples with
  | [] => .ok []
  | s₀ :: _ => collateKeys (s₀.map Prod.fst) samples

/-- The tensors found under key `k` across the samples, in input order. -/
def gatherOk (k : String) (samples : List Sample) : List Tensor :=
  samples.filterMap (lookupKey k)

/-- Spec-side description of the collated batch: for each key of the first
sample, a tensor with a new leading batch axis of length `samples.length`
whose data is the concatenation, in input order, of the per-sample data. -/
def stackedBatch (samples : List Sample) : CollBatch :=
  match samples with
  | [] => []
  | s₀ :: _ =>
    s₀.map (fun p =>
      (p.1, ⟨samples.length :: p.2.shape,
        ((gatherOk p.1 samples).map Tensor.data).join⟩))

/-- Keys of a sample paired with the shapes of their tensors. -/
def keyShapes (s : Sample) : List (String × List ℕ) :=
  s.map (fun p => (p.1, p.2.shape))

/-- Concatenation of two collated batches along the leading batch axis. -/
def catBatches (b₁ b₂ : CollBatch) : CollBatch :=
  List.zipWith (fun p q =>
    (p.1, ⟨(p.2.shape.headD 0 + q.2.shape.headD 0) :: p.2.shape.tail,
      p.2.data ++ q.2.data⟩)) b₁ b₂

/-! Helper lemmas about lookup, gathering and stacking. -/

theorem lookupKey_keyShapes (k : String) :
    ∀ (s₀ s : Sample), keyShapes s = keyShapes s₀ → ∀ t₀, lookupKey k s₀ = some t₀ →
      ∃ t, lookupKey k s = some t ∧ t.shape = t₀.shape := by
  intro s₀
  induction s₀ with
  | nil => intro s _ t₀ h; simp [lookupKey] at h
  | cons p₀ r₀ ih =>
    intro s hks t₀ hl
    cases s with
    | nil => simp [keyShapes] at hks
    | cons p r =>
      simp only [keyShapes, List.map_cons, List.cons.injEq, Prod.mk.injEq] at hks
      obtain ⟨⟨hp1, hp2⟩, hr⟩ := hks
      by_cases hk : p₀.1 = k
      · have ht₀ : t₀ = p₀.2 := by
          simp only [lookupKey, if_pos hk, Option.some.injEq] at hl
          exact hl.symm
        refine ⟨p.2, ?_, by rw [hp2, ht₀]⟩
        simp only [lookupKey, if_pos (hp1.trans hk)]
      · simp only [lookupKey, if_neg hk] at hl
        have hk' : ¬ p.1 = k := fun hcon => hk (hp1 ▸ hcon)
        simp only [lookupKey, if_neg hk']
        exact ih r (by simpa [keyShapes] using hr) t₀ hl

theorem lookupKey_self_of_nodup :
    ∀ (s : Sample), (s.map Prod.fst).Nodup → ∀ p ∈ s, lookupKey p.1 s = some p.2 := by
  intro s
  induction s with
  | nil => intro _ p hp; simp at hp
  | cons q r ih =>
    intro hnd p hp
    simp only [List.map_cons, List.nodup_cons] at hnd
    obtain ⟨hq, hnd'⟩ := hnd
    rcases List.mem_cons.mp hp with hpq | hpr
    · subst hpq
      simp [lookupKey]
    · have hne : ¬ q.1 = p.1 := by
        intro heq
        exact hq (heq ▸ List.mem_map.mpr ⟨p, hpr, rfl⟩)
      simp only [lookupKey, if_neg hne]
      exact ih hnd' p hpr

theorem lookupKey_mem_keys (k : String) :
    ∀ (s : Sample) (t : Tensor), lookupKey k s = some t → k ∈ s.map Prod.fst := by
  intro s
  induction s with
  | nil => intro t h; simp [lookupKey] at h
  | cons q r ih =>
    intro t h
    by_cases hq : q.1 = k
    · simp [hq]
    · simp only [lookupKey, if_neg hq] at h
      simp [ih t h]

theorem lookupKey_isSome_of_mem (k : String) :
    ∀ (s : Sample), k ∈ s.map Prod.fst → (lookupKey k s).isSome := by
  intro s
  induction s with
  | nil => intro h; simp at h
  | cons q r ih =>
    intro h
    by_cases hq : q.1 = k
    · simp [lookupKey, if_pos hq]
    · simp only [List.map_cons, List.mem_cons] at h
      rcases h with h | h
      · exact absurd h.symm hq
      · simp only [lookupKey, if_neg hq]
        exact ih h

theorem gather_ok_of_isSome (k : String) :
    ∀ (samples : List Sample), (∀ s ∈ samples, (lookupKey k s).isSome) →
      gather k samples = .ok (gatherOk k samples) ∧
      (gatherOk k samples).length = samples.length := by
  intro samples
  induction samples with
  | nil => intro _; exact ⟨rfl, rfl⟩
  | cons s rest ih =>
    intro h
    have hs := h s (List.mem_cons_self s rest)
    obtain ⟨t, ht⟩ := Option.isSome_iff_exists.mp hs
    have hrest := ih (fun s' hs' => h s' (List.mem_cons_of_mem s hs'))
    have hgo : gatherOk k (s :: rest) = t :: gatherOk k rest := by
      simp [gatherOk, List.filterMap_cons, ht]
    constructor
    · simp only [gather, ht, hrest.1, hgo]
    · rw [hgo, List.length_cons, hrest.2, List.length_cons]

theorem gatherOk_shape (k : String) (s₀ : Sample) (t₀ : Tensor)
    (hl₀ : lookupKey k s₀ = some t₀) (samples : List Sample)
    (hu : ∀ s ∈ samples, keyShapes s = keyShapes s₀) :
    ∀ t ∈ gatherOk k samples, t.shape = t₀.shape := by
  intro t ht
  rw [gatherOk, List.mem_filterMap] at ht
  obtain ⟨s, hs, hls⟩ := ht
  obtain ⟨t', ht', hsh⟩ := lookupKey_keyShapes k s₀ s (hu s hs) t₀ hl₀
  have : t' = t := Option.some_inj.mp (ht'.symm.trans hls)
  rw [← this]
  exact hsh

theorem stackTensors_uniform (sh : List ℕ) :
    ∀ (ts : List Tensor), ts ≠ [] → (∀ t ∈ ts, t.shape = sh) →
      stackTensors ts = .ok ⟨ts.length :: sh, (ts.map Tensor.data).join⟩ := by
  intro ts hne hsh
  cases ts with
  | nil => exact absurd rfl hne
  | cons t rest =>
    have hts : t.shape = sh := hsh t (List.mem_cons_self _ _)
    have hall : ∀ v ∈ rest, v.shape = t.shape := by
      intro v hv
      rw [hsh v (List.mem_cons_of_mem _ hv), hts]
    simp only [stackTensors]
    rw [if_pos hall, hts]

theorem stackTensors_error (ts : List Tensor) (e : CollateError)
    (h : stackTensors ts = .error e) : e = .shapeMismatch := by
  cases ts with
  | nil => simp [stackTensors] at h
  | cons t rest =>
    simp only [stackTensors] at h
    by_cases hc : ∀ v ∈ rest, v.shape = t.shape
    · rw [if_pos hc] at h
      simp at h
    · rw [if_neg hc] at h
      injection h with h'
      exact h'.symm

theorem stackTensors_ok_shape (ts : List Tensor) (t : Tensor)
    (h : stackTensors ts = .ok t) : ∀ u₁ ∈ ts, ∀ u₂ ∈ ts, u₁.shape = u₂.shape := by
  cases ts with
  | nil => intro u₁ h₁; simp at h₁
  | cons t₀ rest =>
    simp only [stackTensors] at h
    by_cases hc : ∀ v ∈ rest, v.shape = t₀.shape
    · intro u₁ h₁ u₂ h₂
      have e1 : u₁.shape = t₀.shape := by
        rcases List.mem_cons.mp h₁ with rfl | hm
        · rfl
        · exact hc _ hm
      have e2 : u₂.shape = t₀.shape := by
        rcases List.mem_cons.mp h₂ with rfl | hm
        · rfl
        · exact hc _ hm
      rw [e1, e2]
    · rw [if_neg hc] at h
      simp at h

theorem gather_ok_mem (k : String) :
    ∀ (samples : List Sample) (ts : List Tensor), gather k samples = .ok ts →
      ∀ s ∈ samples, ∃ t, lookupKey k s = some t ∧ t ∈ ts := by
  intro samples
  induction samples with
  | nil => intro ts _ s hs; simp at hs
  | cons s₀ rest ih =>
    intro ts hg s hs
    cases hl : lookupKey k s₀ with
    | none => simp [gather, hl] at hg
    | some t₀ =>
      cases hr : gather k rest with
      | error e => simp [gather, hl, hr] at hg
      | ok ts' =>
        simp only [gather, hl, hr, Except.ok.injEq] at hg
        subst hg
        rcases List.mem_cons.mp hs with rfl | hmem
        · exact ⟨t₀, hl, List.mem_cons_self _ _⟩
        · obtain ⟨t, htl, htm⟩ := ih ts' hr s hmem
          exact ⟨t, htl, List.mem_cons_of_mem _ htm⟩

theorem collateKeys_ok_parts :
    ∀ (ks : List String) (samples : List Sample) (bat : CollBatch),
      collateKeys ks samples = .ok bat →
      ∀ k ∈ ks, ∃ ts t, gather k samples = .ok ts ∧ stackTensors ts = .ok t := by
  intro ks
  induction ks with
  | nil => intro samples bat _ k hk; simp at hk
  | cons k₀ ks' ih =>
    intro samples bat hc k hk
    cases hg : gather k₀ samples with
    | error e => simp [collateKeys, hg] at hc
    | ok ts =>
      cases hst : stackTensors ts with
      | error e => simp [collateKeys, hg, hst] at hc
      | ok t =>
        cases hrec : collateKeys ks' samples with
        | error e => simp [collateKeys, hg, hst, hrec] at hc
        | ok bat' =>
          rcases List.mem_cons.mp hk with rfl | hmem
          · exact ⟨ts, t, hg, hst⟩
          · exact ih samples bat' hrec k hmem

theorem collateKeys_error_shape :
    ∀ (ks : List String) (samples : List Sample) (e : CollateError),
      (∀ k ∈ ks, ∀ s ∈ samples, (lookupKey k s).isSome) →
      collateKeys ks samples = .error e → e = .shapeMismatch := by
  intro ks
  induction ks with
  | nil => intro samples e _ h; simp [collateKeys] at h
  | cons k₀ ks' ih =>
    intro samples e hsome hc
    have hg := (gather_ok_of_isSome k₀ samples
      (fun s hs => hsome k₀ (List.mem_cons_self _ _) s hs)).1
    cases hst : stackTensors (gatherOk k₀ samples) with
    | error e' =>
      simp only [collateKeys, hg, hst, Except.error.injEq] at hc
      rw [← hc]
      exact stackTensors_error _ e' hst
    | ok t =>
      cases hrec : collateKeys ks' samples with
      | error e'' =>
        simp only [collateKeys, hg, hst, hrec, Except.error.injEq] at hc
        rw [← hc]
        exact ih samples e''
          (fun k hk s hs => hsome k (List.mem_cons_of_mem _ hk) s hs) hrec
      | ok bat => simp [collateKeys, hg, hst, hrec] at hc

theorem collateKeys_entries (s₀ : Sample) (rest : List Sample)
    (hu : ∀ s ∈ s₀ :: rest, keyShapes s = keyShapes s₀) :
    ∀ (es : List (String × Tensor)), (∀ p ∈ es, lookupKey p.1 s₀ = some p.2) →
      collateKeys (es.map Prod.fst) (s₀ :: rest) =
        .ok (es.map (fun p => (p.1, ⟨(s₀ :: rest).length :: p.2.shape,
          ((gatherOk p.1 (s₀ :: rest)).map Tensor.data).join⟩))) := by
  intro es
  induction es with
  | nil => intro _; rfl
  | cons p es' ih =>
    intro hes
    have hp := hes p (List.mem_cons_self _ _)
    have hsome : ∀ s ∈ s₀ :: rest, (lookupKey p.1 s).isSome := by
      intro s hs
      obtain ⟨t, ht, _⟩ := lookupKey_keyShapes p.1 s₀ s (hu s hs) p.2 hp
      rw [ht]
      rfl
    obtain ⟨hg, hlen⟩ := gather_ok_of_isSome p.1 (s₀ :: rest) hsome
    have hne : gatherOk p.1 (s₀ :: rest) ≠ [] := by
      intro hnil
      rw [hnil] at hlen
      simp at hlen
    have hshapes : ∀ t ∈ gatherOk p.1 (s₀ :: rest), t.shape = p.2.shape :=
      gatherOk_shape p.1 s₀ p.2 hp (s₀ :: rest) hu
    have hst := stackTensors_uniform p.2.shape (gatherOk p.1 (s₀ :: rest)) hne hshapes
    rw [hlen] at hst
    simp only [List.map_cons, collateKeys, hg, hst,
      ih (fun q hq => hes q (List.mem_cons_of_mem p hq))]

theorem collate_ok_uniform (s₀ : Sample) (rest : List Sample)
    (hnodup : (s₀.map Prod.fst).Nodup)
    (hu : ∀ s ∈ s₀ :: rest, keyShapes s = keyShapes s₀) :
    collate (s₀ :: rest) = .ok (stackedBatch (s₀ :: rest)) := by
  have h := collateKeys_entries s₀ rest hu s₀ (lookupKey_self_of_nodup s₀ hnodup)
  simpa [collate, stackedBatch] using h

/-- Claim C4: collation of a non-empty sequence of samples with duplicate-free
keys (i) succeeds and stacks the same-keyed tensors along a new leading batch
axis whenever all samples agree on keys and per-key shapes, and (ii) signals
`ShapeMismatchError`, not a batch, whenever the samples share their key list
but two of them disagree on the shape stored under a shared key. -/
theorem claim_c4_collate (s₀ : Sample) (rest : List Sample)
    (hnodup : (s₀.map Prod.fst).Nodup) :
    ((∀ s ∈ s₀ :: rest, keyShapes s = keyShapes s₀) →
      collate (s₀ :: rest) = .ok (stackedBatch (s₀ :: rest))) ∧
    ((∀ s ∈ s₀ :: rest, s.map Prod.fst = s₀.map Prod.fst) →
      ∀ s₁ ∈ s₀ :: rest, ∀ s₂ ∈ s₀ :: rest, ∀ (k : String) (t₁ t₂ : Tensor),
        lookupKey k s₁ = some t₁ → lookupKey k s₂ = some t₂ → t₁.shape ≠ t₂.shape →
        collate (s₀ :: rest) = .error .shapeMismatch) := by
  constructor
  · intro hu
    exact collate_ok_uniform s₀ rest hnodup hu
  · intro hkeys s₁ hs₁ s₂ hs₂ k t₁ t₂ hl₁ hl₂ hsh
    have hk₁ : k ∈ s₁.map Prod.fst := lookupKey_mem_keys k s₁ t₁ hl₁
    have hk0 : k ∈ s₀.map Prod.fst := (hkeys s₁ hs₁) ▸ hk₁
    have hsome : ∀ k' ∈ s₀.map Prod.fst, ∀ s ∈ s₀ :: rest, (lookupKey k' s).isSome := by
      intro k' hk' s hs
      have hmem : k' ∈ s.map Prod.fst := (hkeys s hs).symm ▸ hk'
      exact lookupKey_isSome_of_mem k' s hmem
    have hcol : collate (s₀ :: rest) = collateKeys (s₀.map Prod.fst) (s₀ :: rest) := rfl
    cases hres : collateKeys (s₀.map Prod.fst) (s₀ :: rest) with
    | ok bat =>
      exfalso
      obtain ⟨ts, t, hg, hst⟩ := collateKeys_ok_parts _ _ bat hres k hk0
      obtain ⟨t₁', h₁', hm₁⟩ := gather_ok_mem k _ ts hg s₁ hs₁
      obtain ⟨t₂', h₂', hm₂⟩ := gather_ok_mem k _ ts hg s₂ hs₂
      have e₁ : t₁' = t₁ := Option.some_inj.mp (h₁'.symm.trans hl₁)
      have e₂ : t₂' = t₂ := Option.some_inj.mp (h₂'.symm.trans hl₂)
      have := stackTensors_ok_shape ts t hst t₁' hm₁ t₂' hm₂
      rw [e₁, e₂] at this
      exact hsh this
    | error e =>
      have he := collateKeys_error_shape (s₀.map Prod.fst) (s₀ :: rest) e hsome hres
      rw [hcol, hres, he]

/-- Witness for Claim C4 at a concrete input. -/
theorem claim_c4_collate_witness :
    ((∀ s ∈ [("image", (⟨[1], [5]⟩ : Tensor))] :: ([] : List Sample),
        keyShapes s = keyShapes [("image", (⟨[1], [5]⟩ : Tensor))]) →
      collate ([("image", (⟨[1], [5]⟩ : Tensor))] :: []) =
        .ok (stackedBatch ([("image", (⟨[1], [5]⟩ : Tensor))] :: []))) ∧
    ((∀ s ∈ [("image", (⟨[1], [5]⟩ : Tensor))] :: ([] : List Sample),
        s.map Prod.fst = [("image", (⟨[1], [5]⟩ : Tensor))].map Prod.fst) →
      ∀ s₁ ∈ [("image", (⟨[1], [5]⟩ : Tensor))] :: ([] : List Sample),
        ∀ s₂ ∈ [("image", (⟨[1], [5]⟩ : Tensor))] :: ([] : List Sample),
        ∀ (k : String) (t₁ t₂ : Tensor),
        lookupKey k s₁ = some t₁ → lookupKey k s₂ = some t₂ → t₁.shape ≠ t₂.shape →
        collate ([("image", (⟨[1], [5]⟩ : Tensor))] :: []) = .error .shapeMismatch) :=
  claim_c4_collate [("image", (⟨[1], [5]⟩ : Tensor))] [] (by decide)

theorem zip_cat_aux (n₁ n₂ : ℕ) (f g : String → List ℚ) :
    ∀ (a b : Sample), keyShapes b = keyShapes a →
      List.zipWith (fun p q =>
          ((p.1 : String), Tensor.mk ((p.2.shape.headD 0 + q.2.shape.headD 0) ::
            p.2.shape.tail) (p.2.data ++ q.2.data)))
        (a.map (fun p => (p.1, Tensor.mk (n₁ :: p.2.shape) (f p.1))))
        (b.map (fun q => (q.1, Tensor.mk (n₂ :: q.2.shape) (g q.1)))) =
      a.map (fun p => (p.1, Tensor.mk ((n₁ + n₂) :: p.2.shape) (f p.1 ++ g p.1))) := by
  intro a
  induction a with
  | nil => intro b h; simp
  | cons p a' ih =>
    intro b h
    cases b with
    | nil => simp [keyShapes] at h
    | cons q b' =>
      simp only [keyShapes, List.map_cons, List.cons.injEq, Prod.mk.injEq] at h
      obtain ⟨⟨h1, h2⟩, hrest⟩ := h
      simp only [List.map_cons, List.zipWith_cons_cons]
      rw [ih b' (by simpa [keyShapes] using hrest)]
      simp [h1]

theorem cat_stacked (a b : Sample) (xr yr : List Sample)
    (hab : keyShapes b = keyShapes a) :
    catBatches (stackedBatch (a :: xr)) (stackedBatch (b :: yr)) =
      stackedBatch ((a :: xr) ++ (b :: yr)) := by
  have hsb : stackedBatch ((a :: xr) ++ (b :: yr)) =
      a.map (fun p => (p.1, ⟨((a :: xr) ++ (b :: yr)).length :: p.2.shape,
        ((gatherOk p.1 ((a :: xr) ++ (b :: yr))).map Tensor.data).join⟩)) := rfl
  rw [hsb]
  simp only [stackedBatch, catBatches]
  have haux := zip_cat_aux (a :: xr).length (b :: yr).length
    (fun k => ((gatherOk k (a :: xr)).map Tensor.data).join)
    (fun k => ((gatherOk k (b :: yr)).map Tensor.data).join) a b hab
  simp only at haux
  rw [haux]
  refine List.map_congr_left ?_
  intro p _
  have hlen : (a :: xr).length + (b :: yr).length = ((a :: xr) ++ (b :: yr)).length :=
    (List.length_append _ _).symm
  have hdata : ((gatherOk p.1 (a :: xr)).map Tensor.data).join ++
      ((gatherOk p.1 (b :: yr)).map Tensor.data).join =
      ((gatherOk p.1 ((a :: xr) ++ (b :: yr))).map Tensor.data).join := by
    simp only [gatherOk, List.filterMap_append, List.map_append, List.join_append]
  rw [hlen, hdata]

/-- Claim C6: collation is associative with respect to batch splitting — for
non-empty halves with uniform keys and shapes, collating all samples in one
call yields exactly the concatenation, along the leading batch axis, of the
two collations of the halves; batch order matches input sample order. -/
theorem claim_c6_collate_split (a b : Sample) (xr yr : List Sample)
    (hnodup : (a.map Prod.fst).Nodup)
    (hx : ∀ s ∈ a :: xr, keyShapes s = keyShapes a)
    (hy : ∀ s ∈ b :: yr, keyShapes s = keyShapes a) :
    ∃ b₁ b₂, collate (a :: xr) = .ok b₁ ∧ collate (b :: yr) = .ok b₂ ∧
      collate ((a :: xr) ++ (b :: yr)) = .ok (catBatches b₁ b₂) := by
  have hba : keyShapes b = keyShapes a := hy b (List.mem_cons_self _ _)
  have hkeys_b : b.map Prod.fst = a.map Prod.fst := by
    have h1 : (keyShapes b).map Prod.fst = (keyShapes a).map Prod.fst := by rw [hba]
    simpa [keyShapes, List.map_map, Function.comp] using h1
  have hnodup_b : (b.map Prod.fst).Nodup := by
    rw [hkeys_b]
    exact hnodup
  have hy' : ∀ s ∈ b :: yr, keyShapes s = keyShapes b :=
    fun s hs => (hy s hs).trans hba.symm
  have h1 := collate_ok_uniform a xr hnodup hx
  have h2 := collate_ok_uniform b yr hnodup_b hy'
  have hall : ∀ s ∈ a :: (xr ++ (b :: yr)), keyShapes s = keyShapes a := by
    intro s hs
    rcases List.mem_cons.mp hs with rfl | hs'
    · rfl
    · rcases List.mem_append.mp hs' with h | h
      · exact hx s (List.mem_cons_of_mem a h)
      · exact hy s h
  have h3 := collate_ok_uniform a (xr ++ (b :: yr)) hnodup hall
  refine ⟨stackedBatch (a :: xr), stackedBatch (b :: yr), h1, h2, ?_⟩
  have hcat := cat_stacked a b xr yr hba
  calc collate ((a :: xr) ++ (b :: yr))
      = collate (a :: (xr ++ (b :: yr))) := rfl
    _ = .ok (stackedBatch (a :: (xr ++ (b :: yr)))) := h3
    _ = .ok (stackedBatch ((a :: xr) ++ (b :: yr))) := rfl
    _ = .ok (catBatches (stackedBatch (a :: xr)) (stackedBatch (b :: yr))) := by
        rw [hcat]

/-- Witness for Claim C6 at a concrete input. -/
theorem claim_c6_collate_split_witness :
    ∃ b₁ b₂,
      collate ([("image", (⟨[1], [1]⟩ : Tensor))] :: []) = .ok b₁ ∧
      collate ([("image", (⟨[1], [2]⟩ : Tensor))] :: []) = .ok b₂ ∧
      collate (([("image", (⟨[1], [1]⟩ : Tensor))] :: []) ++
        ([("image", (⟨[1], [2]⟩ : Tensor))] :: [])) = .ok (catBatches b₁ b₂) :=
  claim_c6_collate_split [("image", (⟨[1], [1]⟩ : Tensor))]
    [("image", (⟨[1], [2]⟩ : Tensor))] [] [] (by decide) (by decide) (by decide)

end TorchGeoTut
